import Mathlib

/-!
# gitproto: the pkt-line codec

A shallow embedding of `gitpktline.go`: `PktLine.Bytes` (encode) and `NextPktLine`
(decode), together with the two standard-library routines they call,
`fmt.Sprintf("%04x", _)` and `strconv.ParseUint(_, 16, 16)`.

A byte is modelled by its numeric value; a Go byte slice by the list of its elements
(the nil slice and the empty slice are both the empty list).
-/

namespace Gitproto

/-- A pkt-line: `type PktLine []byte`, the list of the numeric values of its bytes. -/
abbrev PktLine := List Nat

/-! ## `fmt.Sprintf("%04x", u)` -/

/-- The digit table `"0123456789abcdef"` of package fmt, indexed by a value below 16. -/
def ldigits (d : Nat) : Nat := if d < 10 then 48 + d else 87 + d

/-- The base-16 loop of fmt's integer formatting: `for u >= 16 { buf[i] = digits[u&0xF];
u >>= 4 }; buf[i] = digits[u]`. The digits come out least significant first. The first
argument bounds the number of iterations. -/
def fmtHexLoop : Nat → Nat → List Nat
  | 0, _ => []
  | fuel + 1, u =>
    if u < 16 then [ldigits u] else ldigits (u % 16) :: fmtHexLoop fuel (u / 16)

/-- The digits of `u` in base 16, least significant first. A value `u` has at most
`u + 1` digits, so the loop always runs to its end. -/
def fmtHexRev (u : Nat) : List Nat := fmtHexLoop (u + 1) u

/-- The zero padding of fmt for the flag `0` with a width: `'0'` is written in front
of the digits until there are `wid` characters. -/
def zeroPad (wid : Nat) (rev : List Nat) : List Nat :=
  rev ++ List.replicate (wid - rev.length) 48

/-- The text of `fmt.Sprintf("%04x", u)` for a non-negative integer `u`. -/
def sprintf04x (u : Nat) : List Nat := (zeroPad 4 (fmtHexRev u)).reverse

/-! ## `PktLine.Bytes` -/

/-- `func (pl PktLine) Bytes() []byte`: the length of the line plus four, in
hexadecimal, followed by the line. -/
def PktLine.Bytes (pl : PktLine) : List Nat :=
  let hexLen := sprintf04x (pl.length + 4)
  hexLen ++ pl

/-! ## `strconv.ParseUint` -/

/-- The two errors of package strconv. -/
inductive NumError where
  | ErrSyntax
  | ErrRange
  deriving DecidableEq, Repr

/-- The value of a character as a digit, in the three ranges `'0'..'9'`, `'a'..'z'`
and `'A'..'Z'` that ParseUint accepts; `none` for every other byte. -/
def digitVal (c : Nat) : Option Nat :=
  if 48 ≤ c ∧ c ≤ 57 then some (c - 48)
  else if 97 ≤ c ∧ c ≤ 122 then some (c - 97 + 10)
  else if 65 ≤ c ∧ c ≤ 90 then some (c - 65 + 10)
  else none

/-- The digit loop of ParseUint over the bytes of the string, with the accumulator `n`
a 64-bit unsigned integer: a byte that is no digit of the base is a syntax error, a
value beyond `maxVal` (or beyond 64 bits) a range error. -/
def parseUintLoop (base maxVal cutoff : Nat) : List Nat → Nat → Except NumError Nat
  | [], n => .ok n
  | c :: cs, n =>
    match digitVal c with
    | none => .error .ErrSyntax
    | some d =>
      if d ≥ base then .error .ErrSyntax
      else if n ≥ cutoff then .error .ErrRange
      else
        let n0 := (n * base) % 2 ^ 64
        let n1 := (n0 + d) % 2 ^ 64
        if n1 < n0 ∨ n1 > maxVal then .error .ErrRange
        else parseUintLoop base maxVal cutoff cs n1

/-- `strconv.ParseUint(s, base, bitSize)` for an explicit base between 2 and 36 and a
bit size between 1 and 64: the empty string is a syntax error, then the digit loop
with `cutoff = maxUint64/base + 1` and `maxVal = 1<<bitSize - 1`. -/
def ParseUint (s : List Nat) (base bitSize : Nat) : Except NumError Nat :=
  if s = [] then .error .ErrSyntax
  else parseUintLoop base (2 ^ bitSize - 1) ((2 ^ 64 - 1) / base + 1) s 0

/-! ## `NextPktLine` -/

/-- The errors `NextPktLine` can return: its own `errPktLineNeedMore`, or the error of
ParseUint passed on unchanged. -/
inductive GoError where
  | errPktLineNeedMore
  | numError (e : NumError)
  deriving DecidableEq, Repr

/-- The four named results `(pl, lineBreak, n, err)`; `err = none` is `nil`. -/
structure Result where
  pl : PktLine
  lineBreak : Bool
  n : Nat
  err : Option GoError
  deriving DecidableEq, Repr

/-- How a call ends: it returns its results, or the runtime panics on a slice
expression whose bounds are out of range. -/
inductive Outcome where
  | returned (r : Result)
  | panicked
  deriving DecidableEq, Repr

/-- The slice expression `data[lo:hi]`: the bounds must satisfy `lo ≤ hi` and
`hi ≤ len(data)`, otherwise the runtime panics (`none`). -/
def slice (data : List Nat) (lo hi : Nat) : Option (List Nat) :=
  if lo ≤ hi ∧ hi ≤ data.length then some ((data.take hi).drop lo) else none

/-- `func NextPktLine(data []byte) (pl PktLine, lineBreak bool, n int, err error)`. -/
def NextPktLine (data : List Nat) : Outcome :=
  if data.length < 4 then
    .returned { pl := [], lineBreak := false, n := 0, err := some .errPktLineNeedMore }
  else
    match ParseUint (data.take 4) 16 16 with
    | .error e => .returned { pl := [], lineBreak := false, n := 0, err := some (.numError e) }
    | .ok length =>
      if length = 0 then
        .returned { pl := [], lineBreak := true, n := 4, err := none }
      else if length > data.length then
        .returned { pl := [], lineBreak := false, n := 0, err := some .errPktLineNeedMore }
      else
        match slice data 4 length with
        | none => .panicked
        | some pl => .returned { pl := pl, lineBreak := false, n := length, err := none }

/-! ## Vocabulary of the statements -/

/-- A hexadecimal digit in either case: `0-9`, `a-f` or `A-F`. -/
def IsHexDigit (c : Nat) : Prop :=
  (48 ≤ c ∧ c ≤ 57) ∨ (97 ≤ c ∧ c ≤ 102) ∨ (65 ≤ c ∧ c ≤ 70)

instance (c : Nat) : Decidable (IsHexDigit c) := by unfold IsHexDigit; infer_instance

/-- A lowercase hexadecimal digit: `0-9` or `a-f`. -/
def IsLowerHexDigit (c : Nat) : Prop :=
  (48 ≤ c ∧ c ≤ 57) ∨ (97 ≤ c ∧ c ≤ 102)

instance (c : Nat) : Decidable (IsLowerHexDigit c) := by unfold IsLowerHexDigit; infer_instance

/-- The value of a hexadecimal digit (of no interest on other bytes). -/
def hexDigitValue (c : Nat) : Nat :=
  if c ≤ 57 then c - 48 else if c ≤ 70 then c - 55 else c - 87

/-- The number a string of hexadecimal digits denotes, most significant digit first. -/
def hexValue (s : List Nat) : Nat := s.foldl (fun acc c => acc * 16 + hexDigitValue c) 0

/-- The bytes of a text, character by character. -/
def ascii (s : String) : List Nat := s.toList.map Char.toNat

/-- Two bytes that are equal, or the same letter `a-f` / `A-F` in the two cases. -/
def SameUpToHexCase (c c' : Nat) : Prop :=
  c' = c ∨ (97 ≤ c ∧ c ≤ 102 ∧ c' + 32 = c) ∨ (65 ≤ c ∧ c ≤ 70 ∧ c' = c + 32)

instance (c c' : Nat) : Decidable (SameUpToHexCase c c') := by
  unfold SameUpToHexCase; infer_instance

/-! ## The formatter on the 16-bit range -/

theorem ldigits_lower {d : Nat} (h : d < 16) : IsLowerHexDigit (ldigits d) := by
  unfold IsLowerHexDigit ldigits
  split <;> omega

theorem ldigits_hex {d : Nat} (h : d < 16) : IsHexDigit (ldigits d) := by
  unfold IsHexDigit ldigits
  split <;> omega

theorem hexDigitValue_ldigits {d : Nat} (h : d < 16) : hexDigitValue (ldigits d) = d := by
  unfold hexDigitValue ldigits
  split_ifs <;> omega

theorem fmtHexLoop_succ (fuel u : Nat) :
    fmtHexLoop (fuel + 1) u =
      if u < 16 then [ldigits u] else ldigits (u % 16) :: fmtHexLoop fuel (u / 16) := rfl

/-- With enough iterations the loop yields the digits of a 16-bit value. -/
theorem fmtHexLoop_16bit (f u : Nat) (hu : u < 65536) :
    zeroPad 4 (fmtHexLoop (f + 4) u) =
      [ldigits (u % 16), ldigits (u / 16 % 16), ldigits (u / 256 % 16), ldigits (u / 4096)] := by
  have e0 : ldigits 0 = 48 := rfl
  rw [fmtHexLoop_succ]
  by_cases h1 : u < 16
  · have a1 : u / 16 % 16 = 0 := by omega
    have a2 : u / 256 % 16 = 0 := by omega
    have a3 : u / 4096 = 0 := by omega
    have a0 : u % 16 = u := by omega
    simp [h1, zeroPad, a0, a1, a2, a3, e0, List.replicate]
  · rw [if_neg h1, fmtHexLoop_succ]
    by_cases h2 : u / 16 < 16
    · have a1 : u / 16 % 16 = u / 16 := by omega
      have a2 : u / 256 % 16 = 0 := by omega
      have a3 : u / 4096 = 0 := by omega
      simp [h2, zeroPad, a1, a2, a3, e0, List.replicate]
    · rw [if_neg h2, fmtHexLoop_succ]
      have d2 : u / 16 / 16 = u / 256 := by omega
      have d1 : u / 16 / 16 % 16 = u / 256 % 16 := by omega
      by_cases h3 : u / 256 < 16
      · have a2 : u / 256 % 16 = u / 256 := by omega
        have a3 : u / 4096 = 0 := by omega
        simp [d2, h3, zeroPad, a2, a3, e0, List.replicate]
      · have d3 : u / 256 / 16 = u / 4096 := by omega
        have h4 : u / 4096 < 16 := by omega
        rw [fmtHexLoop_succ]
        simp [d2, d3, h3, h4, zeroPad]

/-- The iteration bound `u + 1` of `fmtHexRev` is never reached on a 16-bit value. -/
theorem fmtHexRev_16bit (u : Nat) (hu : u < 65536) :
    zeroPad 4 (fmtHexRev u) =
      [ldigits (u % 16), ldigits (u / 16 % 16), ldigits (u / 256 % 16), ldigits (u / 4096)] := by
  unfold fmtHexRev
  by_cases h : 3 ≤ u
  · obtain ⟨f, rfl⟩ : ∃ f, u = f + 3 := ⟨u - 3, by omega⟩
    exact fmtHexLoop_16bit f (f + 3) hu
  · have a1 : u / 16 % 16 = 0 := by omega
    have a2 : u / 256 % 16 = 0 := by omega
    have a3 : u / 4096 = 0 := by omega
    have a0 : u % 16 = u := by omega
    have e0 : ldigits 0 = 48 := rfl
    have hlt : u < 16 := by omega
    rw [fmtHexLoop_succ]
    simp [hlt, zeroPad, a0, a1, a2, a3, e0, List.replicate]

theorem sprintf04x_16bit (u : Nat) (hu : u < 65536) :
    sprintf04x u =
      [ldigits (u / 4096), ldigits (u / 256 % 16), ldigits (u / 16 % 16), ldigits (u % 16)] := by
  unfold sprintf04x
  rw [fmtHexRev_16bit u hu]
  rfl

/-! ## The parser on four characters -/

theorem digitVal_hex {c : Nat} (h : IsHexDigit c) :
    digitVal c = some (hexDigitValue c) ∧ hexDigitValue c < 16 := by
  unfold IsHexDigit at h
  unfold digitVal hexDigitValue
  split_ifs <;> simp <;> omega

theorem digitVal_not_hex {c : Nat} (h : ¬ IsHexDigit c) :
    digitVal c = none ∨ ∃ d, digitVal c = some d ∧ 16 ≤ d := by
  unfold IsHexDigit at h
  unfold digitVal
  split_ifs <;> simp <;> omega

/-- One round of the digit loop on a hexadecimal digit, while the value stays in 16 bits. -/
theorem parseUintLoop_hex (c : Nat) (cs : List Nat) (n : Nat) (hc : IsHexDigit c)
    (hn : n < 4096) :
    parseUintLoop 16 (2 ^ 16 - 1) ((2 ^ 64 - 1) / 16 + 1) (c :: cs) n =
      parseUintLoop 16 (2 ^ 16 - 1) ((2 ^ 64 - 1) / 16 + 1) cs (n * 16 + hexDigitValue c) := by
  obtain ⟨hd, hlt⟩ := digitVal_hex hc
  rw [parseUintLoop, hd]
  simp only [Nat.reducePow, Nat.reduceSub, Nat.reduceDiv, Nat.reduceAdd]
  have e0 : n * 16 % 18446744073709551616 = n * 16 := by omega
  have e1 : (n * 16 + hexDigitValue c) % 18446744073709551616 = n * 16 + hexDigitValue c := by
    omega
  rw [e0, e1]
  rw [if_neg (by omega), if_neg (by omega), if_neg (by omega)]

/-- One round of the digit loop on a byte that is no hexadecimal digit. -/
theorem parseUintLoop_not_hex (c : Nat) (cs : List Nat) (n maxVal cutoff : Nat)
    (hc : ¬ IsHexDigit c) :
    parseUintLoop 16 maxVal cutoff (c :: cs) n = .error .ErrSyntax := by
  rcases digitVal_not_hex hc with hd | ⟨d, hd, hge⟩
  · rw [parseUintLoop, hd]
  · rw [parseUintLoop, hd]
    simp only [ge_iff_le]
    rw [if_pos hge]

theorem hexValue_four (a b c d : Nat) :
    hexValue [a, b, c, d] =
      ((hexDigitValue a * 16 + hexDigitValue b) * 16 + hexDigitValue c) * 16 + hexDigitValue d := by
  simp [hexValue]

/-- Four hexadecimal digits always parse, to the number they denote. -/
theorem ParseUint_hex4 (a b c d : Nat) (ha : IsHexDigit a) (hb : IsHexDigit b)
    (hc : IsHexDigit c) (hd : IsHexDigit d) :
    ParseUint [a, b, c, d] 16 16 = .ok (hexValue [a, b, c, d]) := by
  have va := (digitVal_hex ha).2
  have vb := (digitVal_hex hb).2
  have vc := (digitVal_hex hc).2
  unfold ParseUint
  rw [if_neg (by simp)]
  rw [parseUintLoop_hex a _ 0 ha (by omega), parseUintLoop_hex b _ _ hb (by omega),
    parseUintLoop_hex c _ _ hc (by omega), parseUintLoop_hex d _ _ hd (by omega),
    hexValue_four]
  simp [parseUintLoop]

/-- Four bytes of which one is no hexadecimal digit are a syntax error. -/
theorem ParseUint_not_hex4 (a b c d : Nat)
    (h : ¬ (IsHexDigit a ∧ IsHexDigit b ∧ IsHexDigit c ∧ IsHexDigit d)) :
    ParseUint [a, b, c, d] 16 16 = .error .ErrSyntax := by
  unfold ParseUint
  rw [if_neg (by simp)]
  by_cases ha : IsHexDigit a
  · have va := (digitVal_hex ha).2
    rw [parseUintLoop_hex a _ 0 ha (by omega)]
    by_cases hb : IsHexDigit b
    · have vb := (digitVal_hex hb).2
      rw [parseUintLoop_hex b _ _ hb (by omega)]
      by_cases hc : IsHexDigit c
      · have vc := (digitVal_hex hc).2
        rw [parseUintLoop_hex c _ _ hc (by omega)]
        have hd : ¬ IsHexDigit d := fun hd => h ⟨ha, hb, hc, hd⟩
        exact parseUintLoop_not_hex d _ _ _ _ hd
      · exact parseUintLoop_not_hex c _ _ _ _ hc
    · exact parseUintLoop_not_hex b _ _ _ _ hb
  · exact parseUintLoop_not_hex a _ _ _ _ ha

theorem hexValue_four_lt (a b c d : Nat) (ha : IsHexDigit a) (hb : IsHexDigit b)
    (hc : IsHexDigit c) (hd : IsHexDigit d) : hexValue [a, b, c, d] < 65536 := by
  have va := (digitVal_hex ha).2
  have vb := (digitVal_hex hb).2
  have vc := (digitVal_hex hc).2
  have vd := (digitVal_hex hd).2
  rw [hexValue_four]
  omega

/-- A buffer of at least four bytes, split into its prefix and the rest. -/
theorem exists_prefix4 (data : List Nat) (h : 4 ≤ data.length) :
    ∃ a b c d rest, data = a :: b :: c :: d :: rest := by
  match data, h with
  | a :: b :: c :: d :: rest, _ => exact ⟨a, b, c, d, rest, rfl⟩

/-- The decoder on a buffer whose prefix is four hexadecimal digits. -/
theorem NextPktLine_hex4 (a b c d : Nat) (rest : List Nat) (ha : IsHexDigit a)
    (hb : IsHexDigit b) (hc : IsHexDigit c) (hd : IsHexDigit d) :
    NextPktLine (a :: b :: c :: d :: rest) =
      if hexValue [a, b, c, d] = 0 then
        .returned { pl := [], lineBreak := true, n := 4, err := none }
      else if hexValue [a, b, c, d] > rest.length + 4 then
        .returned { pl := [], lineBreak := false, n := 0, err := some .errPktLineNeedMore }
      else if hexValue [a, b, c, d] < 4 then .panicked
      else .returned { pl := rest.take (hexValue [a, b, c, d] - 4), lineBreak := false,
                       n := hexValue [a, b, c, d], err := none } := by
  unfold NextPktLine
  have hlen : ¬ (a :: b :: c :: d :: rest).length < 4 := by simp
  rw [if_neg hlen]
  have htake : (a :: b :: c :: d :: rest).take 4 = [a, b, c, d] := by simp
  rw [htake, ParseUint_hex4 a b c d ha hb hc hd]
  simp only [List.length_cons]
  generalize hexValue [a, b, c, d] = v
  by_cases h0 : v = 0
  · simp [h0]
  · rw [if_neg h0, if_neg h0]
    by_cases h1 : v > rest.length + 4
    · have h1' : v > rest.length + 1 + 1 + 1 + 1 := by omega
      rw [if_pos h1, if_pos h1']
    · have h1' : ¬ v > rest.length + 1 + 1 + 1 + 1 := by omega
      rw [if_neg h1, if_neg h1']
      by_cases h2 : v < 4
      · rw [if_pos h2]
        have : slice (a :: b :: c :: d :: rest) 4 v = none := by
          unfold slice
          rw [if_neg (by omega)]
        rw [this]
      · rw [if_neg h2]
        obtain ⟨k, rfl⟩ : ∃ k, v = k + 4 := ⟨v - 4, by omega⟩
        have : slice (a :: b :: c :: d :: rest) 4 (k + 4) = some (rest.take k) := by
          unfold slice
          rw [if_pos (by simp; omega)]
          simp
        rw [this]
        simp

/-- The decoder on a buffer whose prefix is not four hexadecimal digits. -/
theorem NextPktLine_not_hex4 (a b c d : Nat) (rest : List Nat)
    (h : ¬ (IsHexDigit a ∧ IsHexDigit b ∧ IsHexDigit c ∧ IsHexDigit d)) :
    NextPktLine (a :: b :: c :: d :: rest) =
      .returned { pl := [], lineBreak := false, n := 0, err := some (.numError .ErrSyntax) } := by
  unfold NextPktLine
  have hlen : ¬ (a :: b :: c :: d :: rest).length < 4 := by simp
  rw [if_neg hlen]
  have htake : (a :: b :: c :: d :: rest).take 4 = [a, b, c, d] := by simp
  rw [htake, ParseUint_not_hex4 a b c d h]

/-! ## The encoder on payloads below 65532 bytes -/

/-- The encoding of a payload whose total length fits four hexadecimal digits. -/
theorem Bytes_16bit (P : PktLine) (h : P.length < 65532) :
    PktLine.Bytes P =
      ldigits ((P.length + 4) / 4096) :: ldigits ((P.length + 4) / 256 % 16) ::
        ldigits ((P.length + 4) / 16 % 16) :: ldigits ((P.length + 4) % 16) :: P := by
  unfold PktLine.Bytes
  simp only []
  rw [sprintf04x_16bit _ (by omega)]
  rfl

/-- The four digits written by the encoder denote the number they were made from. -/
theorem hexValue_ldigits4 (u : Nat) (hu : u < 65536) :
    hexValue [ldigits (u / 4096), ldigits (u / 256 % 16), ldigits (u / 16 % 16),
      ldigits (u % 16)] = u := by
  rw [hexValue_four, hexDigitValue_ldigits (by omega), hexDigitValue_ldigits (by omega),
    hexDigitValue_ldigits (by omega), hexDigitValue_ldigits (by omega)]
  omega

/-- The decoder on an encoded payload followed by arbitrary bytes. -/
theorem NextPktLine_Bytes_append (P : PktLine) (R : List Nat) (h : P.length < 65532) :
    NextPktLine (PktLine.Bytes P ++ R) =
      .returned { pl := P, lineBreak := false, n := P.length + 4, err := none } := by
  rw [Bytes_16bit P h]
  simp only [List.cons_append]
  rw [NextPktLine_hex4 _ _ _ _ _ (ldigits_hex (by omega)) (ldigits_hex (by omega))
    (ldigits_hex (by omega)) (ldigits_hex (by omega)), hexValue_ldigits4 _ (by omega)]
  rw [if_neg (by omega), if_neg (by simp), if_neg (by omega)]
  simp

/-! ## The formatter beyond the 16-bit range -/

theorem hexValue_append_singleton (xs : List Nat) (c : Nat) :
    hexValue (xs ++ [c]) = hexValue xs * 16 + hexDigitValue c := by
  simp [hexValue, List.foldl_append]

/-- The loop writes lowercase hexadecimal digits, and they denote its argument. -/
theorem fmtHexLoop_value : ∀ (fuel u : Nat), u < fuel →
    hexValue (fmtHexLoop fuel u).reverse = u ∧ ∀ c ∈ fmtHexLoop fuel u, IsLowerHexDigit c
  | 0, u, h => absurd h (Nat.not_lt_zero u)
  | fuel + 1, u, h => by
    rw [fmtHexLoop_succ]
    by_cases h1 : u < 16
    · rw [if_pos h1]
      refine ⟨?_, ?_⟩
      · simp [hexValue, hexDigitValue_ldigits h1]
      · intro c hc
        rw [List.mem_singleton] at hc
        rw [hc]
        exact ldigits_lower h1
    · rw [if_neg h1]
      obtain ⟨ihv, ihd⟩ := fmtHexLoop_value fuel (u / 16) (by omega)
      refine ⟨?_, ?_⟩
      · rw [List.reverse_cons, hexValue_append_singleton, ihv,
          hexDigitValue_ldigits (by omega)]
        omega
      · intro c hc
        rcases List.mem_cons.mp hc with rfl | hc
        · exact ldigits_lower (by omega)
        · exact ihd c hc

/-- A value of exactly four hexadecimal digits. -/
theorem fmtHexLoop_four_digits (f u : Nat) (h1 : 4096 ≤ u) (h2 : u < 65536) :
    fmtHexLoop (f + 4) u =
      [ldigits (u % 16), ldigits (u / 16 % 16), ldigits (u / 256 % 16), ldigits (u / 4096)] := by
  have d3 : u / 16 / 16 / 16 = u / 4096 := by omega
  have d2 : u / 16 / 16 = u / 256 := by omega
  rw [fmtHexLoop_succ, if_neg (by omega), fmtHexLoop_succ, if_neg (by omega),
    fmtHexLoop_succ, if_neg (by omega), fmtHexLoop_succ, if_pos (by omega), d3, d2]

/-- The most significant four digits the loop writes for a value from 4096 on: they
denote a number `v` between 4096 and 65535, and more digits follow exactly when the
value does not fit 16 bits. -/
theorem fmtHexLoop_top : ∀ (fuel u : Nat), u < fuel → 4096 ≤ u →
    ∃ v tail, 4096 ≤ v ∧ v < 65536 ∧ (u < 65536 → v = u ∧ tail = []) ∧
      (65536 ≤ u → tail ≠ []) ∧
      (fmtHexLoop fuel u).reverse =
        ldigits (v / 4096) :: ldigits (v / 256 % 16) :: ldigits (v / 16 % 16) ::
          ldigits (v % 16) :: tail
  | 0, u, h, _ => absurd h (Nat.not_lt_zero u)
  | fuel + 1, u, h, h4 => by
    by_cases hu : u < 65536
    · obtain ⟨f, hf⟩ : ∃ f, fuel + 1 = f + 4 := ⟨fuel - 3, by omega⟩
      refine ⟨u, [], h4, hu, fun _ => ⟨rfl, rfl⟩, fun h' => absurd hu (by omega), ?_⟩
      rw [hf, fmtHexLoop_four_digits f u h4 hu]
      rfl
    · obtain ⟨v, tail, hv1, hv2, _, _, hrev⟩ :=
        fmtHexLoop_top fuel (u / 16) (by omega) (by omega)
      refine ⟨v, tail ++ [ldigits (u % 16)], hv1, hv2, fun h' => absurd h' hu,
        fun _ => by simp, ?_⟩
      rw [fmtHexLoop_succ, if_neg (by omega), List.reverse_cons, hrev]
      rfl

theorem zeroPad_of_le (wid : Nat) (rev : List Nat) (h : wid ≤ rev.length) :
    zeroPad wid rev = rev := by
  unfold zeroPad
  rw [Nat.sub_eq_zero_of_le h]
  simp

/-- The text of a value from 65536 on: more than four lowercase hexadecimal digits that
denote the value, of which the first four denote a number between 4096 and 65535. -/
theorem sprintf04x_large (u : Nat) (hu : 65536 ≤ u) :
    ∃ v tail, 4096 ≤ v ∧ v < 65536 ∧ tail ≠ [] ∧
      sprintf04x u =
        ldigits (v / 4096) :: ldigits (v / 256 % 16) :: ldigits (v / 16 % 16) ::
          ldigits (v % 16) :: tail ∧
      hexValue (sprintf04x u) = u ∧ ∀ c ∈ sprintf04x u, IsLowerHexDigit c := by
  obtain ⟨v, tail, hv1, hv2, _, htail, hrev⟩ :=
    fmtHexLoop_top (u + 1) u (by omega) (by omega)
  obtain ⟨hval, hdig⟩ := fmtHexLoop_value (u + 1) u (by omega)
  have hlen : 4 ≤ (fmtHexLoop (u + 1) u).length := by
    have := congrArg List.length hrev
    rw [List.length_reverse] at this
    rw [this]
    simp
  have hs : sprintf04x u = (fmtHexLoop (u + 1) u).reverse := by
    unfold sprintf04x fmtHexRev
    rw [zeroPad_of_le 4 _ hlen]
  refine ⟨v, tail, hv1, hv2, htail hu, ?_, ?_, ?_⟩
  · rw [hs, hrev]
  · rw [hs, hval]
  · intro c hc
    rw [hs, List.mem_reverse] at hc
    exact hdig c hc

/-- The decoder on the encoding of a payload of 65532 bytes or more: the prefix read
is the first four of the digits written, and a shorter frame is returned. -/
theorem NextPktLine_Bytes_large (P : PktLine) (h : 65532 ≤ P.length) :
    ∃ v tail, 4096 ≤ v ∧ v < 65536 ∧ tail ≠ [] ∧
      PktLine.Bytes P =
        ldigits (v / 4096) :: ldigits (v / 256 % 16) :: ldigits (v / 16 % 16) ::
          ldigits (v % 16) :: (tail ++ P) ∧
      NextPktLine (PktLine.Bytes P) =
        .returned { pl := (tail ++ P).take (v - 4), lineBreak := false, n := v, err := none } := by
  obtain ⟨v, tail, hv1, hv2, htail, hs, _, _⟩ := sprintf04x_large (P.length + 4) (by omega)
  have hB : PktLine.Bytes P =
      ldigits (v / 4096) :: ldigits (v / 256 % 16) :: ldigits (v / 16 % 16) ::
        ldigits (v % 16) :: (tail ++ P) := by
    unfold PktLine.Bytes
    simp only []
    rw [hs]
    rfl
  refine ⟨v, tail, hv1, hv2, htail, hB, ?_⟩
  rw [hB, NextPktLine_hex4 _ _ _ _ _ (ldigits_hex (by omega)) (ldigits_hex (by omega))
    (ldigits_hex (by omega)) (ldigits_hex (by omega)), hexValue_ldigits4 _ hv2]
  have hl : (tail ++ P).length = tail.length + P.length := List.length_append _ _
  rw [if_neg (by omega), if_neg (by omega), if_neg (by omega)]

/-! ## Every way the decoder can end -/

/-- A call of the decoder ends in one of five ways, decided by the length of the buffer
and by its first four bytes. -/
theorem NextPktLine_cases (data : List Nat) :
    (data.length < 4 ∧ NextPktLine data =
        .returned { pl := [], lineBreak := false, n := 0, err := some .errPktLineNeedMore }) ∨
    ∃ a b c d rest, data = a :: b :: c :: d :: rest ∧
      ((¬ (IsHexDigit a ∧ IsHexDigit b ∧ IsHexDigit c ∧ IsHexDigit d) ∧
          NextPktLine data = .returned
            { pl := [], lineBreak := false, n := 0, err := some (.numError .ErrSyntax) }) ∨
       ((IsHexDigit a ∧ IsHexDigit b ∧ IsHexDigit c ∧ IsHexDigit d) ∧
          hexValue [a, b, c, d] < 65536 ∧
          ((hexValue [a, b, c, d] = 0 ∧ NextPktLine data = .returned
              { pl := [], lineBreak := true, n := 4, err := none }) ∨
           (hexValue [a, b, c, d] > data.length ∧ NextPktLine data = .returned
              { pl := [], lineBreak := false, n := 0, err := some .errPktLineNeedMore }) ∨
           (1 ≤ hexValue [a, b, c, d] ∧ hexValue [a, b, c, d] < 4 ∧
              NextPktLine data = .panicked) ∨
           (4 ≤ hexValue [a, b, c, d] ∧ hexValue [a, b, c, d] ≤ data.length ∧
              NextPktLine data = .returned
                { pl := rest.take (hexValue [a, b, c, d] - 4), lineBreak := false,
                  n := hexValue [a, b, c, d], err := none })))) := by
  by_cases hlen : data.length < 4
  · left
    refine ⟨hlen, ?_⟩
    unfold NextPktLine
    rw [if_pos hlen]
  · right
    obtain ⟨a, b, c, d, rest, rfl⟩ := exists_prefix4 data (by omega)
    refine ⟨a, b, c, d, rest, rfl, ?_⟩
    by_cases hhex : IsHexDigit a ∧ IsHexDigit b ∧ IsHexDigit c ∧ IsHexDigit d
    · right
      obtain ⟨ha, hb, hc, hd⟩ := hhex
      refine ⟨⟨ha, hb, hc, hd⟩, hexValue_four_lt a b c d ha hb hc hd, ?_⟩
      rw [NextPktLine_hex4 a b c d rest ha hb hc hd]
      simp only [List.length_cons]
      by_cases h0 : hexValue [a, b, c, d] = 0
      · left
        exact ⟨h0, by rw [if_pos h0]⟩
      · right
        rw [if_neg h0]
        by_cases h1 : hexValue [a, b, c, d] > rest.length + 4
        · left
          exact ⟨by omega, by rw [if_pos h1]⟩
        · right
          rw [if_neg h1]
          by_cases h2 : hexValue [a, b, c, d] < 4
          · left
            exact ⟨by omega, h2, by rw [if_pos h2]⟩
          · right
            exact ⟨by omega, by omega, by rw [if_neg h2]⟩
    · left
      exact ⟨hhex, NextPktLine_not_hex4 a b c d rest hhex⟩

/-! ## Letter case in the prefix -/

theorem SameUpToHexCase_hex {c c' : Nat} (h : SameUpToHexCase c c') :
    (IsHexDigit c' ↔ IsHexDigit c) ∧ (IsHexDigit c → hexDigitValue c' = hexDigitValue c) := by
  unfold SameUpToHexCase at h
  unfold IsHexDigit hexDigitValue
  rcases h with h | h | h
  · subst h
    exact ⟨Iff.rfl, fun _ => rfl⟩
  · refine ⟨by omega, fun _ => ?_⟩
    split_ifs <;> omega
  · refine ⟨by omega, fun _ => ?_⟩
    split_ifs <;> omega

/-- A buffer whose first `n` bytes are known, with `n` at least four of them. -/
theorem exists_prefix4_of_take (data2 : List Nat) (n a b c d : Nat) (xs : List Nat)
    (h : data2.take n = a :: b :: c :: d :: xs) :
    ∃ k rest2, n = k + 4 ∧ data2 = a :: b :: c :: d :: rest2 ∧ rest2.take k = xs := by
  match n, data2, h with
  | k + 4, a2 :: b2 :: c2 :: d2 :: rest2, h2 =>
    simp only [List.take_succ_cons, List.cons.injEq] at h2
    obtain ⟨rfl, rfl, rfl, rfl, h3⟩ := h2
    exact ⟨k, rest2, rfl, rfl, h3⟩
  | 0, _, h => simp at h
  | 1, [], h => simp at h
  | 1, _ :: _, h => simp at h
  | 2, [], h => simp at h
  | 2, [_], h => simp at h
  | 2, _ :: _ :: _, h => simp at h
  | 3, [], h => simp at h
  | 3, [_], h => simp at h
  | 3, [_, _], h => simp at h
  | 3, _ :: _ :: _ :: _, h => simp at h
  | _ + 4, [], h => simp at h
  | _ + 4, [_], h => simp at h
  | _ + 4, [_, _], h => simp at h
  | _ + 4, [_, _, _], h => simp at h

/-! ## The claims -/

/-- C1: round trip. For every payload `P` shorter than 65532 bytes, decoding the
encoding of `P` returns the frame `P`, no line break, no error, and a consumed count
equal to the length of the encoding, which is `len(P) + 4`. -/
theorem roundtrip (P : PktLine) (h : P.length < 65532) :
    NextPktLine (PktLine.Bytes P) =
        .returned { pl := P, lineBreak := false, n := (PktLine.Bytes P).length, err := none } ∧
      (PktLine.Bytes P).length = P.length + 4 := by
  have hlen : (PktLine.Bytes P).length = P.length + 4 := by
    rw [Bytes_16bit P h]
    simp
  have hdec := NextPktLine_Bytes_append P [] h
  rw [List.append_nil] at hdec
  rw [hdec, hlen]
  exact ⟨rfl, rfl⟩

theorem roundtrip_witness :
    [104, 101, 108, 108, 111].length < 65532 ∧
      (NextPktLine (PktLine.Bytes [104, 101, 108, 108, 111]) =
          .returned { pl := [104, 101, 108, 108, 111], lineBreak := false,
                      n := (PktLine.Bytes [104, 101, 108, 108, 111]).length, err := none } ∧
        (PktLine.Bytes [104, 101, 108, 108, 111]).length = [104, 101, 108, 108, 111].length + 4) :=
  ⟨by decide, roundtrip [104, 101, 108, 108, 111] (by decide)⟩

/-- C2: encode format. For every payload `P` shorter than 65532 bytes the encoding has
`len(P) + 4` bytes; its first four bytes are lowercase hexadecimal digits that denote
`len(P) + 4` (so they are zero-padded on the left); the bytes from offset 4 on are `P`.
The encoding of `"hello"` is `"0009hello"`. -/
theorem Bytes_format (P : PktLine) (h : P.length < 65532) :
    (PktLine.Bytes P).length = P.length + 4 ∧
      ((PktLine.Bytes P).take 4).length = 4 ∧
      (∀ c ∈ (PktLine.Bytes P).take 4, IsLowerHexDigit c) ∧
      hexValue ((PktLine.Bytes P).take 4) = P.length + 4 ∧
      (PktLine.Bytes P).drop 4 = P ∧
      PktLine.Bytes (ascii "hello") = ascii "0009hello" := by
  rw [Bytes_16bit P h]
  refine ⟨by simp, by simp, ?_, ?_, by simp, by decide⟩
  · intro c hc
    simp only [List.take_succ_cons, List.take_zero, List.mem_cons, List.mem_nil_iff,
      or_false] at hc
    rcases hc with rfl | rfl | rfl | rfl <;> exact ldigits_lower (by omega)
  · simp only [List.take_succ_cons, List.take_zero]
    exact hexValue_ldigits4 _ (by omega)

theorem Bytes_format_witness :
    [10, 0, 255].length < 65532 ∧
      ((PktLine.Bytes [10, 0, 255]).length = [10, 0, 255].length + 4 ∧
        ((PktLine.Bytes [10, 0, 255]).take 4).length = 4 ∧
        (∀ c ∈ (PktLine.Bytes [10, 0, 255]).take 4, IsLowerHexDigit c) ∧
        hexValue ((PktLine.Bytes [10, 0, 255]).take 4) = [10, 0, 255].length + 4 ∧
        (PktLine.Bytes [10, 0, 255]).drop 4 = [10, 0, 255] ∧
        PktLine.Bytes (ascii "hello") = ascii "0009hello") :=
  ⟨by decide, Bytes_format [10, 0, 255] (by decide)⟩

/-- C3: flush marker. On every buffer that starts with the four characters `"0000"`,
whatever follows them, the decoder returns a line break, a consumed count of 4, an empty
frame and no error. -/
theorem flush_marker (rest : List Nat) :
    NextPktLine ([48, 48, 48, 48] ++ rest) =
      .returned { pl := [], lineBreak := true, n := 4, err := none } := by
  have h0 : IsHexDigit 48 := by decide
  have hv : hexValue [48, 48, 48, 48] = 0 := by decide
  show NextPktLine (48 :: 48 :: 48 :: 48 :: rest) = _
  rw [NextPktLine_hex4 48 48 48 48 rest h0 h0 h0 h0, hv]
  rfl

/-- C4: need-more-data boundary. For every payload `P` shorter than 65532 bytes, with
`E` its encoding and `T` the length of `E`, the decoder on the first `T - 1` bytes of `E`
fails with `errPktLineNeedMore`, and on all of `E` it returns without an error. -/
theorem need_more_boundary (P : PktLine) (h : P.length < 65532) :
    NextPktLine ((PktLine.Bytes P).take ((PktLine.Bytes P).length - 1)) =
        .returned { pl := [], lineBreak := false, n := 0, err := some .errPktLineNeedMore } ∧
      ∃ r, NextPktLine (PktLine.Bytes P) = .returned r ∧ r.err = none := by
  constructor
  · rw [Bytes_16bit P h]
    rcases Nat.eq_zero_or_pos P.length with h0 | hpos
    · have hP : P = [] := List.length_eq_zero.mp h0
      subst hP
      rfl
    · obtain ⟨k, hk⟩ : ∃ k, P.length = k + 1 := ⟨P.length - 1, by omega⟩
      have hT : ∀ a b c d : Nat, (a :: b :: c :: d :: P).length - 1 = k + 4 := by
        intro a b c d
        simp only [List.length_cons]
        omega
      rw [hT]
      simp only [List.take_succ_cons]
      have hk' : (P.take k).length = k := by
        rw [List.length_take]
        omega
      rw [NextPktLine_hex4 _ _ _ _ _ (ldigits_hex (by omega)) (ldigits_hex (by omega))
        (ldigits_hex (by omega)) (ldigits_hex (by omega)), hexValue_ldigits4 _ (by omega)]
      rw [if_neg (by omega), if_pos (by omega)]
  · have hdec := NextPktLine_Bytes_append P [] h
    rw [List.append_nil] at hdec
    exact ⟨_, hdec, rfl⟩

theorem need_more_boundary_witness :
    [7, 8].length < 65532 ∧
      (NextPktLine ((PktLine.Bytes [7, 8]).take ((PktLine.Bytes [7, 8]).length - 1)) =
          .returned { pl := [], lineBreak := false, n := 0, err := some .errPktLineNeedMore } ∧
        ∃ r, NextPktLine (PktLine.Bytes [7, 8]) = .returned r ∧ r.err = none) :=
  ⟨by decide, need_more_boundary [7, 8] (by decide)⟩

/-- C5: minimum length. On every buffer of fewer than four bytes, whatever its
contents, the decoder fails with `errPktLineNeedMore` and returns no frame, no line break
and a consumed count of 0. -/
theorem minimum_length (data : List Nat) (h : data.length < 4) :
    NextPktLine data =
      .returned { pl := [], lineBreak := false, n := 0, err := some .errPktLineNeedMore } := by
  unfold NextPktLine
  rw [if_pos h]

theorem minimum_length_witness :
    [48, 48, 48].length < 4 ∧
      NextPktLine [48, 48, 48] =
        .returned { pl := [], lineBreak := false, n := 0, err := some .errPktLineNeedMore } :=
  ⟨by decide, minimum_length [48, 48, 48] (by decide)⟩

/-- C6: malformed prefix. On every buffer of at least four bytes in which one of the
first four bytes is no hexadecimal digit, the decoder fails with the syntax error of the
length parser, which is not `errPktLineNeedMore`, and returns no frame, no line break and
a consumed count of 0. -/
theorem malformed_prefix_rejected (data : List Nat) (hlen : 4 ≤ data.length)
    (hbad : ∃ c ∈ data.take 4, ¬ IsHexDigit c) :
    NextPktLine data =
        .returned { pl := [], lineBreak := false, n := 0, err := some (.numError .ErrSyntax) } ∧
      GoError.numError .ErrSyntax ≠ GoError.errPktLineNeedMore := by
  obtain ⟨a, b, c, d, rest, rfl⟩ := exists_prefix4 data hlen
  refine ⟨NextPktLine_not_hex4 a b c d rest ?_, by simp⟩
  rintro ⟨ha, hb, hc, hd⟩
  obtain ⟨x, hx, hnot⟩ := hbad
  simp only [List.take_succ_cons, List.take_zero, List.mem_cons, List.mem_nil_iff,
    or_false] at hx
  rcases hx with rfl | rfl | rfl | rfl
  · exact hnot ha
  · exact hnot hb
  · exact hnot hc
  · exact hnot hd

theorem malformed_prefix_rejected_witness :
    (4 ≤ (ascii "xyzz").length ∧ (∃ c ∈ (ascii "xyzz").take 4, ¬ IsHexDigit c) ∧
      NextPktLine (ascii "xyzz") =
        .returned { pl := [], lineBreak := false, n := 0, err := some (.numError .ErrSyntax) }) ∧
    (NextPktLine (ascii "+009hello") =
        .returned { pl := [], lineBreak := false, n := 0, err := some (.numError .ErrSyntax) }) ∧
    (NextPktLine (ascii "0x09hello") =
        .returned { pl := [], lineBreak := false, n := 0, err := some (.numError .ErrSyntax) }) ∧
    (NextPktLine (ascii "0_09hello") =
        .returned { pl := [], lineBreak := false, n := 0, err := some (.numError .ErrSyntax) }) ∧
    (NextPktLine (ascii " 009hello") =
        .returned { pl := [], lineBreak := false, n := 0, err := some (.numError .ErrSyntax) }) :=
  ⟨⟨by decide, by decide, (malformed_prefix_rejected (ascii "xyzz") (by decide) (by decide)).1⟩,
    (malformed_prefix_rejected (ascii "+009hello") (by decide) (by decide)).1,
    (malformed_prefix_rejected (ascii "0x09hello") (by decide) (by decide)).1,
    (malformed_prefix_rejected (ascii "0_09hello") (by decide) (by decide)).1,
    (malformed_prefix_rejected (ascii " 009hello") (by decide) (by decide)).1⟩

/-- C7: successful payload decode. On every buffer `data` of at least four bytes whose
first four bytes are hexadecimal digits denoting `v`, if `4 ≤ v ≤ len(data)` the decoder
returns no error, no line break, the consumed count `v`, and the frame `data[4:v]`: it
has `v - 4` bytes and its byte at index `i` is the byte of `data` at index `4 + i`,
whatever its value. -/
theorem payload_decode (data : List Nat) (v : Nat) (hlen : 4 ≤ data.length)
    (hhex : ∀ c ∈ data.take 4, IsHexDigit c) (hv : hexValue (data.take 4) = v)
    (h4 : 4 ≤ v) (hle : v ≤ data.length) :
    ∃ pl, NextPktLine data =
          .returned { pl := pl, lineBreak := false, n := v, err := none } ∧
      pl = (data.take v).drop 4 ∧ pl.length = v - 4 ∧
      ∀ i, i < v - 4 → pl[i]? = data[4 + i]? := by
  obtain ⟨a, b, c, d, rest, rfl⟩ := exists_prefix4 data hlen
  simp only [List.take_succ_cons, List.take_zero, List.mem_cons, List.mem_nil_iff,
    or_false, forall_eq_or_imp, forall_eq] at hhex hv
  obtain ⟨ha, hb, hc, hd⟩ := hhex
  simp only [List.length_cons] at hle
  obtain ⟨k, rfl⟩ : ∃ k, v = k + 4 := ⟨v - 4, by omega⟩
  refine ⟨rest.take k, ?_, by simp, ?_, ?_⟩
  · rw [NextPktLine_hex4 a b c d rest ha hb hc hd, hv]
    rw [if_neg (by omega), if_neg (by omega), if_neg (by omega)]
    simp
  · rw [List.length_take]
    omega
  · intro i hi
    have hi' : i < k := by omega
    rw [List.getElem?_take_of_lt hi']
    have e : 4 + i = i + 1 + 1 + 1 + 1 := by omega
    rw [e]
    simp only [List.getElem?_cons_succ]

theorem payload_decode_witness :
    4 ≤ (ascii "000A\n\n00zz").length ∧ hexValue ((ascii "000A\n\n00zz").take 4) = 10 ∧
      ∃ pl, NextPktLine (ascii "000A\n\n00zz") =
            .returned { pl := pl, lineBreak := false, n := 10, err := none } ∧
        pl = ((ascii "000A\n\n00zz").take 10).drop 4 ∧ pl.length = 10 - 4 ∧
        ∀ i, i < 10 - 4 → pl[i]? = (ascii "000A\n\n00zz")[4 + i]? :=
  ⟨by decide, by decide,
    payload_decode (ascii "000A\n\n00zz") 10 (by decide) (by decide) (by decide) (by decide)
      (by decide)⟩

/-- C8: completeness check. On every buffer `data` of at least four bytes whose first
four bytes are hexadecimal digits denoting `v`, if `v > len(data)` the decoder fails with
`errPktLineNeedMore` and returns no frame, no line break and a consumed count of 0. -/
theorem completeness_check (data : List Nat) (v : Nat) (hlen : 4 ≤ data.length)
    (hhex : ∀ c ∈ data.take 4, IsHexDigit c) (hv : hexValue (data.take 4) = v)
    (hgt : v > data.length) :
    NextPktLine data =
      .returned { pl := [], lineBreak := false, n := 0, err := some .errPktLineNeedMore } := by
  obtain ⟨a, b, c, d, rest, rfl⟩ := exists_prefix4 data hlen
  simp only [List.take_succ_cons, List.take_zero, List.mem_cons, List.mem_nil_iff,
    or_false, forall_eq_or_imp, forall_eq] at hhex hv
  obtain ⟨ha, hb, hc, hd⟩ := hhex
  simp only [List.length_cons] at hgt
  rw [NextPktLine_hex4 a b c d rest ha hb hc hd, hv]
  rw [if_neg (by omega), if_pos (by omega)]

theorem completeness_check_witness :
    (ascii "0009hel").length = 7 ∧ hexValue ((ascii "0009hel").take 4) = 9 ∧
      NextPktLine (ascii "0009hel") =
        .returned { pl := [], lineBreak := false, n := 0, err := some .errPktLineNeedMore } :=
  ⟨by decide, by decide,
    completeness_check (ascii "0009hel") 9 (by decide) (by decide) (by decide) (by decide)⟩

/-- C9: only the first frame is decoded. For every payload `P` shorter than 65532 bytes
and every byte sequence `R`, the decoder on the encoding of `P` followed by `R` returns
the frame `P`, no line break, no error and the consumed count `len(P) + 4`, and the
buffer after the consumed bytes is `R`. -/
theorem first_frame_only (P : PktLine) (R : List Nat) (h : P.length < 65532) :
    NextPktLine (PktLine.Bytes P ++ R) =
        .returned { pl := P, lineBreak := false, n := P.length + 4, err := none } ∧
      (PktLine.Bytes P ++ R).drop (P.length + 4) = R := by
  refine ⟨NextPktLine_Bytes_append P R h, ?_⟩
  rw [Bytes_16bit P h]
  simp

theorem first_frame_only_witness :
    (ascii "hi").length < 65532 ∧
      (NextPktLine (PktLine.Bytes (ascii "hi") ++ ascii "0007abc00") =
          .returned { pl := ascii "hi", lineBreak := false, n := (ascii "hi").length + 4,
                      err := none } ∧
        (PktLine.Bytes (ascii "hi") ++ ascii "0007abc00").drop ((ascii "hi").length + 4) =
          ascii "0007abc00") :=
  ⟨by decide, first_frame_only (ascii "hi") (ascii "0007abc00") (by decide)⟩

/-- C10: declared lengths smaller than the prefix. On the buffers `"0001"`, `"0002abcd"`
and `"0003"`, whose declared lengths are 1, 2 and 3, the decoder does not return: the
slice expression `data[4:length]` has its lower bound above its upper bound and the
runtime panics. -/
theorem small_declared_length_panics :
    NextPktLine (ascii "0001") = .panicked ∧
      NextPktLine (ascii "0002abcd") = .panicked ∧
      NextPktLine (ascii "0003") = .panicked := by
  decide

/-- C11: no partial success. Whenever the decoder returns an error it returns no frame,
no line break and a consumed count of 0; whenever it returns without an error it returns
either a flush (line break, consumed count 4, no frame) or a complete frame (no line
break, the frame `data[4:n]` with `4 ≤ n ≤ len(data)`). -/
theorem no_partial_success (data : List Nat) (r : Result)
    (h : NextPktLine data = .returned r) :
    (r.err ≠ none → r.pl = [] ∧ r.lineBreak = false ∧ r.n = 0) ∧
      (r.err = none →
        (r.lineBreak = true ∧ r.n = 4 ∧ r.pl = []) ∨
        (r.lineBreak = false ∧ 4 ≤ r.n ∧ r.n ≤ data.length ∧
          r.pl = (data.take r.n).drop 4)) := by
  rcases NextPktLine_cases data with ⟨_, heq⟩ | ⟨a, b, c, d, rest, rfl, hcase⟩
  · rw [heq] at h
    cases h
    simp
  · rcases hcase with ⟨_, heq⟩ | ⟨_, _, heq | heq | heq | heq⟩
    · rw [heq] at h
      cases h
      simp
    · rw [heq.2] at h
      cases h
      simp
    · rw [heq.2] at h
      cases h
      simp
    · rw [heq.2.2] at h
      cases h
    · obtain ⟨h4, hle, heq⟩ := heq
      rw [heq] at h
      cases h
      refine ⟨by simp, fun _ => Or.inr ⟨rfl, h4, hle, ?_⟩⟩
      obtain ⟨k, hk⟩ : ∃ k, hexValue [a, b, c, d] = k + 4 := ⟨_, (Nat.sub_add_cancel h4).symm⟩
      simp only [hk, Nat.add_sub_cancel, List.take_succ_cons, List.drop_succ_cons, List.drop_zero]

theorem no_partial_success_witness :
    (NextPktLine (ascii "0009hel") =
        .returned { pl := [], lineBreak := false, n := 0, err := some .errPktLineNeedMore } ∧
      NextPktLine (ascii "0006hi0000") =
        .returned { pl := ascii "hi", lineBreak := false, n := 6, err := none }) ∧
    ((some GoError.errPktLineNeedMore ≠ none →
        ([] : PktLine) = [] ∧ false = false ∧ 0 = 0) ∧
      (ascii "hi" = ((ascii "0006hi0000").take 6).drop 4)) :=
  ⟨⟨by decide, by decide⟩,
    (no_partial_success (ascii "0009hel")
      { pl := [], lineBreak := false, n := 0, err := some .errPktLineNeedMore } (by decide)).1,
    ((no_partial_success (ascii "0006hi0000")
      { pl := ascii "hi", lineBreak := false, n := 6, err := none } (by decide)).2 rfl).elim
      (fun h => absurd h.1 (by decide)) (fun h => h.2.2.2)⟩

/-- C12: an empty payload is not a flush. The empty payload encodes to the four bytes
`"0004"`, which decode as an empty frame without line break, with a consumed count of 4
and no error; and for a payload of any length the encoding does not begin with `"0000"`
and the decoder returns on it without a line break. -/
theorem empty_payload_not_flush :
    PktLine.Bytes [] = ascii "0004" ∧
      NextPktLine (ascii "0004") =
        .returned { pl := [], lineBreak := false, n := 4, err := none } ∧
      ∀ P : PktLine, (PktLine.Bytes P).take 4 ≠ ascii "0000" ∧
        ∃ r, NextPktLine (PktLine.Bytes P) = .returned r ∧ r.lineBreak = false := by
  refine ⟨by decide, by decide, fun P => ?_⟩
  have hz : ascii "0000" = [48, 48, 48, 48] := by decide
  have hzv : hexValue [48, 48, 48, 48] = 0 := by decide
  by_cases h : P.length < 65532
  · refine ⟨?_, _, by simpa using NextPktLine_Bytes_append P [] h, rfl⟩
    intro heq
    rw [Bytes_16bit P h, hz] at heq
    simp only [List.take_succ_cons, List.take_zero] at heq
    have hv := hexValue_ldigits4 (P.length + 4) (by omega)
    rw [heq, hzv] at hv
    omega
  · obtain ⟨v, tail, hv1, hv2, _, hB, hN⟩ := NextPktLine_Bytes_large P (by omega)
    refine ⟨?_, _, hN, rfl⟩
    intro heq
    rw [hB, hz] at heq
    simp only [List.take_succ_cons, List.take_zero] at heq
    have hv := hexValue_ldigits4 v hv2
    rw [heq, hzv] at hv
    omega

/-- C13: the prefix is read without regard to letter case. For every buffer `data` of at
least four bytes and every buffer `data'` that differs from it only in the case of letters
`a-f` / `A-F` among the first four bytes, the decoder ends on `data'` as it does on
`data`: the same frame, line break, consumed count and error. -/
theorem case_insensitive (data data' : List Nat) (hlen : 4 ≤ data.length)
    (hpre : List.Forall₂ SameUpToHexCase (data.take 4) (data'.take 4))
    (hrest : data'.drop 4 = data.drop 4) :
    NextPktLine data' = NextPktLine data := by
  obtain ⟨a, b, c, d, rest, rfl⟩ := exists_prefix4 data hlen
  have hlen' : 4 ≤ data'.length := by
    have := hpre.length_eq
    simp only [List.take_succ_cons, List.take_zero, List.length_cons, List.length_nil,
      List.length_take] at this
    omega
  obtain ⟨a', b', c', d', rest', rfl⟩ := exists_prefix4 data' hlen'
  simp only [List.take_succ_cons, List.take_zero, List.forall₂_cons] at hpre
  obtain ⟨ha, hb, hc, hd, _⟩ := hpre
  simp only [List.drop_succ_cons, List.drop_zero] at hrest
  subst hrest
  have ea := SameUpToHexCase_hex ha
  have eb := SameUpToHexCase_hex hb
  have ec := SameUpToHexCase_hex hc
  have ed := SameUpToHexCase_hex hd
  by_cases hhex : IsHexDigit a ∧ IsHexDigit b ∧ IsHexDigit c ∧ IsHexDigit d
  · obtain ⟨xa, xb, xc, xd⟩ := hhex
    have hv : hexValue [a', b', c', d'] = hexValue [a, b, c, d] := by
      rw [hexValue_four, hexValue_four, ea.2 xa, eb.2 xb, ec.2 xc, ed.2 xd]
    rw [NextPktLine_hex4 a' b' c' d' _ (ea.1.2 xa) (eb.1.2 xb) (ec.1.2 xc) (ed.1.2 xd),
      NextPktLine_hex4 a b c d _ xa xb xc xd, hv]
  · have hhex' : ¬ (IsHexDigit a' ∧ IsHexDigit b' ∧ IsHexDigit c' ∧ IsHexDigit d') :=
      fun ⟨xa, xb, xc, xd⟩ => hhex ⟨ea.1.1 xa, eb.1.1 xb, ec.1.1 xc, ed.1.1 xd⟩
    rw [NextPktLine_not_hex4 a' b' c' d' _ hhex', NextPktLine_not_hex4 a b c d _ hhex]

theorem case_insensitive_witness :
    4 ≤ (ascii "000apayl\n!").length ∧
      NextPktLine (ascii "000Apayl\n!") = NextPktLine (ascii "000apayl\n!") ∧
      NextPktLine (ascii "000apayl\n!") =
        .returned { pl := ascii "payl\n!", lineBreak := false, n := 10, err := none } :=
  ⟨by decide,
    case_insensitive (ascii "000apayl\n!") (ascii "000Apayl\n!") (by decide)
      (List.Forall₂.cons (Or.inl rfl) (List.Forall₂.cons (Or.inl rfl)
        (List.Forall₂.cons (Or.inl rfl) (List.Forall₂.cons (Or.inr (Or.inl (by decide)))
          List.Forall₂.nil))))
      (by decide),
    by decide⟩

/-- C14: decoding depends only on the consumed bytes. For every buffer `data` on which
the decoder returns without an error and with consumed count `n`, and every buffer `data2`
whose first `n` bytes are the first `n` bytes of `data`, the decoder on `data2` returns
the same frame, line break and consumed count, without an error. -/
theorem depends_only_on_consumed (data data2 : List Nat) (r : Result)
    (h : NextPktLine data = .returned r) (he : r.err = none)
    (hpre : data2.take r.n = data.take r.n) :
    NextPktLine data2 = .returned r := by
  rcases NextPktLine_cases data with ⟨_, heq⟩ | ⟨a, b, c, d, rest, rfl, hcase⟩
  · rw [heq] at h
    cases h
    simp at he
  · rcases hcase with ⟨_, heq⟩ | ⟨⟨ha, hb, hc, hd⟩, _, heq | heq | heq | heq⟩
    · rw [heq] at h
      cases h
      simp at he
    · obtain ⟨h0, heq⟩ := heq
      rw [heq] at h
      cases h
      simp only [List.take_succ_cons, List.take_zero] at hpre
      obtain ⟨k, rest2, _, rfl, _⟩ := exists_prefix4_of_take data2 4 a b c d [] hpre
      rw [NextPktLine_hex4 a b c d rest2 ha hb hc hd, if_pos h0]
    · rw [heq.2] at h
      cases h
      simp at he
    · rw [heq.2.2] at h
      cases h
    · obtain ⟨h4, hle, heq⟩ := heq
      rw [heq] at h
      cases h
      simp only [List.length_cons] at hle
      obtain ⟨k, hk⟩ : ∃ k, hexValue [a, b, c, d] = k + 4 := ⟨_, (Nat.sub_add_cancel h4).symm⟩
      simp only [hk, Nat.add_sub_cancel] at hpre ⊢
      rw [List.take_succ_cons, List.take_succ_cons, List.take_succ_cons,
        List.take_succ_cons] at hpre
      obtain ⟨k', rest2, hk', rfl, htake⟩ :=
        exists_prefix4_of_take data2 (k + 4) a b c d (rest.take k) hpre
      have hkk : k' = k := by omega
      subst hkk
      have hl : k' ≤ rest2.length := by
        have := congrArg List.length htake
        rw [List.length_take, List.length_take] at this
        omega
      rw [NextPktLine_hex4 a b c d rest2 ha hb hc hd, hk]
      rw [if_neg (by omega), if_neg (by omega), if_neg (by omega)]
      simp only [Nat.add_sub_cancel]
      rw [htake]

theorem depends_only_on_consumed_witness :
    NextPktLine (ascii "0006hi0000") =
        .returned { pl := ascii "hi", lineBreak := false, n := 6, err := none } ∧
      NextPktLine (ascii "0006hi\nzz") =
        .returned { pl := ascii "hi", lineBreak := false, n := 6, err := none } ∧
      NextPktLine (ascii "0006hi") =
        .returned { pl := ascii "hi", lineBreak := false, n := 6, err := none } :=
  ⟨by decide,
    depends_only_on_consumed (ascii "0006hi0000") (ascii "0006hi\nzz")
      { pl := ascii "hi", lineBreak := false, n := 6, err := none } (by decide) rfl (by decide),
    depends_only_on_consumed (ascii "0006hi0000") (ascii "0006hi")
      { pl := ascii "hi", lineBreak := false, n := 6, err := none } (by decide) rfl (by decide)⟩

/-- C15: length-field overflow. For every payload `P` of 65532 bytes or more, the
length `len(P) + 4` is written in full, in more than four lowercase hexadecimal digits,
so the encoding is longer than `len(P) + 4` and its first four bytes do not denote
`len(P) + 4`; the decoder on the encoding returns without an error a frame that is not
`P`: one of at most 65531 bytes, with a consumed count below the length of the encoding. -/
theorem length_field_overflow (P : PktLine) (h : 65532 ≤ P.length) :
    4 < (sprintf04x (P.length + 4)).length ∧
      (∀ c ∈ sprintf04x (P.length + 4), IsLowerHexDigit c) ∧
      hexValue (sprintf04x (P.length + 4)) = P.length + 4 ∧
      P.length + 4 < (PktLine.Bytes P).length ∧
      hexValue ((PktLine.Bytes P).take 4) ≠ P.length + 4 ∧
      ∃ pl n, NextPktLine (PktLine.Bytes P) =
            .returned { pl := pl, lineBreak := false, n := n, err := none } ∧
        pl ≠ P ∧ pl.length ≤ 65531 ∧ n < (PktLine.Bytes P).length := by
  obtain ⟨v0, tail0, _, _, htail0, hs, hval, hdig⟩ := sprintf04x_large (P.length + 4) (by omega)
  obtain ⟨v, tail, hv1, hv2, htail, hB, hN⟩ := NextPktLine_Bytes_large P h
  have ht0 : 0 < tail0.length := List.length_pos.mpr htail0
  have ht : 0 < tail.length := List.length_pos.mpr htail
  have hBlen : (PktLine.Bytes P).length = tail.length + P.length + 4 := by
    rw [hB]
    simp only [List.length_cons, List.length_append]
  refine ⟨?_, hdig, hval, by omega, ?_, (tail ++ P).take (v - 4), v, hN, ?_, ?_, by omega⟩
  · rw [hs]
    simp only [List.length_cons]
    omega
  · rw [hB]
    simp only [List.take_succ_cons, List.take_zero]
    rw [hexValue_ldigits4 v hv2]
    omega
  · intro heq
    have := congrArg List.length heq
    rw [List.length_take] at this
    omega
  · rw [List.length_take]
    omega

theorem length_field_overflow_witness :
    65532 ≤ (List.replicate 65532 0).length ∧
      (4 < (sprintf04x ((List.replicate 65532 0).length + 4)).length ∧
        (∀ c ∈ sprintf04x ((List.replicate 65532 0).length + 4), IsLowerHexDigit c) ∧
        hexValue (sprintf04x ((List.replicate 65532 0).length + 4)) =
          (List.replicate 65532 0).length + 4 ∧
        (List.replicate 65532 0).length + 4 < (PktLine.Bytes (List.replicate 65532 0)).length ∧
        hexValue ((PktLine.Bytes (List.replicate 65532 0)).take 4) ≠
          (List.replicate 65532 0).length + 4 ∧
        ∃ pl n, NextPktLine (PktLine.Bytes (List.replicate 65532 0)) =
              .returned { pl := pl, lineBreak := false, n := n, err := none } ∧
          pl ≠ List.replicate 65532 0 ∧ pl.length ≤ 65531 ∧
          n < (PktLine.Bytes (List.replicate 65532 0)).length) :=
  ⟨Nat.le_of_eq (List.length_replicate 65532 0).symm,
    length_field_overflow (List.replicate 65532 0)
      (Nat.le_of_eq (List.length_replicate 65532 0).symm)⟩

/-- C16: progress and bounds on success. Whenever the decoder returns without an error,
the consumed count `n` satisfies `4 ≤ n ≤ len(data)` and `n ≤ 65535`, the frame has
`n - 4` bytes (none for a flush), and the buffer without its first `n` bytes is strictly
shorter, by exactly `n`. -/
theorem progress_and_bounds (data : List Nat) (r : Result)
    (h : NextPktLine data = .returned r) (he : r.err = none) :
    4 ≤ r.n ∧ r.n ≤ data.length ∧ r.n ≤ 65535 ∧ r.pl.length = r.n - 4 ∧
      (r.lineBreak = true → r.pl.length = 0) ∧
      (data.drop r.n).length < data.length ∧
      (data.drop r.n).length + r.n = data.length := by
  rcases NextPktLine_cases data with ⟨_, heq⟩ | ⟨a, b, c, d, rest, rfl, hcase⟩
  · rw [heq] at h
    cases h
    simp at he
  · rcases hcase with ⟨_, heq⟩ | ⟨_, hlt, heq | heq | heq | heq⟩
    · rw [heq] at h
      cases h
      simp at he
    · rw [heq.2] at h
      cases h
      simp
      omega
    · rw [heq.2] at h
      cases h
      simp at he
    · rw [heq.2.2] at h
      cases h
    · obtain ⟨h4, hle, heq⟩ := heq
      rw [heq] at h
      cases h
      simp only [List.length_cons] at hle
      simp only [List.length_cons, List.length_take, List.length_drop]
      refine ⟨h4, by omega, by omega, by omega, fun hf => by simp at hf, by omega, by omega⟩

theorem progress_and_bounds_witness :
    NextPktLine (ascii "0006hi0000") =
        .returned { pl := ascii "hi", lineBreak := false, n := 6, err := none } ∧
      (4 ≤ 6 ∧ 6 ≤ (ascii "0006hi0000").length ∧ 6 ≤ 65535 ∧ (ascii "hi").length = 6 - 4 ∧
        (false = true → (ascii "hi").length = 0) ∧
        ((ascii "0006hi0000").drop 6).length < (ascii "0006hi0000").length ∧
        ((ascii "0006hi0000").drop 6).length + 6 = (ascii "0006hi0000").length) :=
  ⟨by decide,
    progress_and_bounds (ascii "0006hi0000")
      { pl := ascii "hi", lineBreak := false, n := 6, err := none } (by decide) rfl⟩

/-- C17: when more data is asked for. The decoder returns `errPktLineNeedMore` exactly
when the buffer has fewer than four bytes, or its first four bytes are hexadecimal digits
that denote a number above the length of the buffer. Four hexadecimal digits always
parse, to a number that fits 16 bits, so such a prefix is never reported as malformed; and
a prefix with a byte that is no hexadecimal digit is never reported as a need of more
data. -/
theorem need_more_iff (data : List Nat) :
    ((∃ r, NextPktLine data = .returned r ∧ r.err = some .errPktLineNeedMore) ↔
        (data.length < 4 ∨
          (4 ≤ data.length ∧ (∀ c ∈ data.take 4, IsHexDigit c) ∧
            hexValue (data.take 4) > data.length))) ∧
      ((4 ≤ data.length ∧ ∀ c ∈ data.take 4, IsHexDigit c) →
        ParseUint (data.take 4) 16 16 = .ok (hexValue (data.take 4)) ∧
          hexValue (data.take 4) ≤ 65535 ∧
          ∀ r e, NextPktLine data = .returned r → r.err ≠ some (.numError e)) ∧
      ((4 ≤ data.length ∧ ∃ c ∈ data.take 4, ¬ IsHexDigit c) →
        ∀ r, NextPktLine data = .returned r → r.err ≠ some .errPktLineNeedMore) := by
  rcases NextPktLine_cases data with ⟨hlen, heq⟩ | ⟨a, b, c, d, rest, rfl, hcase⟩
  · refine ⟨⟨fun _ => Or.inl hlen, fun _ => ⟨_, heq, rfl⟩⟩, fun h => ?_, fun h => ?_⟩ <;> omega
  · simp only [List.take_succ_cons, List.take_zero, List.mem_cons, List.mem_nil_iff,
      or_false, forall_eq_or_imp, forall_eq, exists_eq_or_imp, exists_eq_left]
    have hl4 : ¬ (a :: b :: c :: d :: rest).length < 4 := by simp
    rcases hcase with ⟨hbad, heq⟩ | ⟨⟨ha, hb, hc, hd⟩, hlt, hcase⟩
    · refine ⟨⟨?_, ?_⟩, fun h => absurd h.2 hbad, fun _ r hr => ?_⟩
      · rintro ⟨r, hr, he⟩
        rw [heq] at hr
        cases hr
        simp at he
      · rintro (h | ⟨_, h, _⟩)
        · exact absurd h hl4
        · exact absurd h hbad
      · rw [heq] at hr
        cases hr
        simp
    · have hparse := ParseUint_hex4 a b c d ha hb hc hd
      have hnotbad : ¬ (¬ IsHexDigit a ∨ ¬ IsHexDigit b ∨ ¬ IsHexDigit c ∨ ¬ IsHexDigit d) := by
        rintro (h | h | h | h)
        · exact h ha
        · exact h hb
        · exact h hc
        · exact h hd
      refine ⟨?_, fun _ => ⟨hparse, by omega, ?_⟩, fun h => absurd h.2 hnotbad⟩
      · rcases hcase with heq | heq | heq | heq
        · refine ⟨?_, ?_⟩
          · rintro ⟨r, hr, he⟩
            rw [heq.2] at hr
            cases hr
            simp at he
          · rintro (h | ⟨_, _, h⟩)
            · exact absurd h hl4
            · omega
        · exact ⟨fun _ => Or.inr ⟨by simp, ⟨ha, hb, hc, hd⟩, heq.1⟩, fun _ => ⟨_, heq.2, rfl⟩⟩
        · refine ⟨?_, ?_⟩
          · rintro ⟨r, hr, he⟩
            rw [heq.2.2] at hr
            cases hr
          · rintro (h | ⟨h4, _, h⟩)
            · exact absurd h hl4
            · simp only [List.length_cons] at h
              omega
        · refine ⟨?_, ?_⟩
          · rintro ⟨r, hr, he⟩
            rw [heq.2.2] at hr
            cases hr
            simp at he
          · rintro (h | ⟨_, _, h⟩)
            · exact absurd h hl4
            · omega
      · intro r e hr
        rcases hcase with heq | heq | heq | heq
        · rw [heq.2] at hr
          cases hr
          simp
        · rw [heq.2] at hr
          cases hr
          simp
        · rw [heq.2.2] at hr
          cases hr
        · rw [heq.2.2] at hr
          cases hr
          simp

theorem need_more_iff_witness :
    (∃ r, NextPktLine (ascii "0009hel") = .returned r ∧ r.err = some .errPktLineNeedMore) ∧
      (∀ r, NextPktLine (ascii "xyzz") = .returned r → r.err ≠ some .errPktLineNeedMore) ∧
      ParseUint ((ascii "ffff").take 4) 16 16 = .ok (hexValue ((ascii "ffff").take 4)) :=
  ⟨(need_more_iff (ascii "0009hel")).1.2 (Or.inr ⟨by decide, by decide, by decide⟩),
    (need_more_iff (ascii "xyzz")).2.2 ⟨by decide, by decide⟩,
    ((need_more_iff (ascii "ffff")).2.1 ⟨by decide, by decide⟩).1⟩

end Gitproto
